import Mathlib

set_option linter.unusedVariables false

namespace Abeye

/-- Embedding of `TypeKind` from `src/lib.rs`. The Rust `Type` is a salsa-interned
handle around a `TypeKind`; interning makes handle equality coincide with structural
equality, so we model `Type` directly as the structural tree. `Object` carries the
`BTreeMap<String, Property>` as a list of `(name, ty, optional)` triples in key order. -/
inductive Ty where
  | reference : String → Ty
  | object : List (String × Ty × Bool) → Ty
  | array : Ty → Ty
  | tuple : List Ty → Ty
  | or : List Ty → Ty
  | and : List Ty → Ty
  | number : Ty
  | ident : String → Ty
  | string : Ty
  | boolean : Ty

mutual

/-- Structural equality on `Ty` (handle equality of the interned Rust `Type`). -/
def Ty.beq : Ty → Ty → Bool
  | .reference a, .reference b => a == b
  | .object fs, .object gs => beqFields fs gs
  | .array a, .array b => Ty.beq a b
  | .tuple a, .tuple b => beqList a b
  | .or a, .or b => beqList a b
  | .and a, .and b => beqList a b
  | .number, .number => true
  | .ident a, .ident b => a == b
  | .string, .string => true
  | .boolean, .boolean => true
  | _, _ => false

def beqList : List Ty → List Ty → Bool
  | [], [] => true
  | a :: as, b :: bs => Ty.beq a b && beqList as bs
  | _, _ => false

def beqFields : List (String × Ty × Bool) → List (String × Ty × Bool) → Bool
  | [], [] => true
  | (n, t, o) :: as, (m, u, p) :: bs => n == m && Ty.beq t u && o == p && beqFields as bs
  | _, _ => false

end

/-- Strong induction on the size of a `Ty`. -/
theorem Ty.sizeOf_ind (motive : Ty → Prop)
    (step : ∀ t, (∀ s : Ty, sizeOf s < sizeOf t → motive s) → motive t) : ∀ t, motive t :=
  fun t => step t (fun s h => Ty.sizeOf_ind motive step s)
termination_by t => sizeOf t
decreasing_by exact h

theorem beqList_iff (as : List Ty) (ih : ∀ a ∈ as, ∀ b, (Ty.beq a b = true) ↔ a = b) :
    ∀ bs, (beqList as bs = true) ↔ as = bs := by
  induction as with
  | nil => intro bs; cases bs <;> simp [beqList]
  | cons a as ihl =>
    intro bs
    cases bs with
    | nil => simp [beqList]
    | cons b bs =>
      simp only [beqList, Bool.and_eq_true, List.cons.injEq]
      rw [ih a (by simp), ihl (fun x hx => ih x (by simp [hx]))]

theorem beqFields_iff (as : List (String × Ty × Bool))
    (ih : ∀ a ∈ as, ∀ b, (Ty.beq (a.2.1) b = true) ↔ a.2.1 = b) :
    ∀ bs, (beqFields as bs = true) ↔ as = bs := by
  induction as with
  | nil => intro bs; cases bs <;> simp [beqFields]
  | cons a as ihl =>
    intro bs
    obtain ⟨n, t, o⟩ := a
    cases bs with
    | nil => simp [beqFields]
    | cons b bs =>
      obtain ⟨m, u, p⟩ := b
      simp only [beqFields, Bool.and_eq_true, List.cons.injEq, beq_iff_eq,
        Prod.mk.injEq]
      rw [ih (n, t, o) (by simp), ihl (fun x hx => ih x (by simp [hx]))]
      tauto

theorem Ty.beq_iff : ∀ a b : Ty, (Ty.beq a b = true) ↔ a = b := by
  intro a
  induction a using Ty.sizeOf_ind with
  | step a ih =>
    intro b
    cases a <;> cases b <;>
      simp only [Ty.beq, beq_iff_eq, Bool.false_eq_true,
        Ty.reference.injEq, Ty.object.injEq, Ty.array.injEq, Ty.tuple.injEq,
        Ty.or.injEq, Ty.and.injEq, Ty.ident.injEq] <;>
      try exact iff_of_false (fun h => h) (fun h => Ty.noConfusion h)
    case array.array a b => exact ih a (by simp) b
    case object.object fs gs =>
      exact beqFields_iff fs
        (fun x hx => ih x.2.1 (by
          have := List.sizeOf_lt_of_mem hx
          obtain ⟨n, t, o⟩ := x
          simp only [Ty.object.sizeOf_spec]
          simp only [Prod.mk.sizeOf_spec] at this
          omega)) gs
    case tuple.tuple as bs =>
      exact beqList_iff as
        (fun x hx => ih x (by have := List.sizeOf_lt_of_mem hx; simp; omega)) bs
    case or.or as bs =>
      exact beqList_iff as
        (fun x hx => ih x (by have := List.sizeOf_lt_of_mem hx; simp; omega)) bs
    case and.and as bs =>
      exact beqList_iff as
        (fun x hx => ih x (by have := List.sizeOf_lt_of_mem hx; simp; omega)) bs

instance : DecidableEq Ty := fun a b =>
  decidable_of_iff (Ty.beq a b = true) (Ty.beq_iff a b)

theorem tyBeq_of_eq {a b : Ty} (h : a = b) : Ty.beq a b = true := (Ty.beq_iff a b).mpr h

theorem not_tyBeq_of_ne {a b : Ty} (h : a ≠ b) : ¬Ty.beq a b = true :=
  fun hb => h ((Ty.beq_iff a b).mp hb)

/-! ## A total order on `Ty`

`simplify_ty` sorts `Or`/`And` members with itertools' `sorted()`, which uses the
`Ord` of the salsa-interned `Type` handle: an arbitrary but fixed total order on
interned types, under which two types compare equal exactly when they are
structurally equal.  We model it by a concrete structural total order and prove
the facts `sorted()` guarantees: reflexivity-as-`eq`, `eq` iff equal, and
antisymmetry of the comparison (`swap`). -/

/-- Comparison induced by a linear order. -/
def cmpOfLt {α : Type} [LinearOrder α] (a b : α) : Ordering :=
  if a < b then .lt else if b < a then .gt else .eq

theorem cmpOfLt_eq_iff {α : Type} [LinearOrder α] (a b : α) :
    cmpOfLt a b = .eq ↔ a = b := by
  rcases lt_trichotomy a b with h | h | h
  · simp [cmpOfLt, h, h.ne]
  · subst h; simp [cmpOfLt]
  · simp [cmpOfLt, h, lt_asymm h, ne_of_gt h]

theorem cmpOfLt_self {α : Type} [LinearOrder α] (a : α) : cmpOfLt a a = .eq := by
  simp [cmpOfLt]

theorem cmpOfLt_swap {α : Type} [LinearOrder α] (a b : α) :
    (cmpOfLt a b).swap = cmpOfLt b a := by
  rcases lt_trichotomy a b with h | h | h
  · simp [cmpOfLt, h, lt_asymm h, Ordering.swap]
  · subst h; simp [cmpOfLt, Ordering.swap]
  · simp [cmpOfLt, h, lt_asymm h, Ordering.swap]

theorem Ordering.then_eq_eq_iff (x y : Ordering) :
    x.then y = .eq ↔ x = .eq ∧ y = .eq := by
  cases x <;> cases y <;> simp [Ordering.then]

theorem Ordering.then_swap (x y : Ordering) :
    (x.then y).swap = x.swap.then y.swap := by
  cases x <;> cases y <;> rfl

/-- Lexicographic comparison of character lists. -/
def cmpCharList : List Char → List Char → Ordering
  | [], [] => .eq
  | [], _ :: _ => .lt
  | _ :: _, [] => .gt
  | a :: as, b :: bs => (cmpOfLt a b).then (cmpCharList as bs)

/-- Lexicographic comparison of strings (Rust's `Ord` for `String` compares
UTF-8 bytes, which orders exactly like code points). -/
def cmpString (a b : String) : Ordering := cmpCharList a.data b.data

theorem cmpCharList_eq_iff (as bs : List Char) :
    cmpCharList as bs = .eq ↔ as = bs := by
  induction as generalizing bs with
  | nil => cases bs <;> simp [cmpCharList]
  | cons a as ih =>
    cases bs with
    | nil => simp [cmpCharList]
    | cons b bs =>
      rw [cmpCharList, Ordering.then_eq_eq_iff, cmpOfLt_eq_iff, ih]
      simp

theorem cmpCharList_swap (as bs : List Char) :
    (cmpCharList as bs).swap = cmpCharList bs as := by
  induction as generalizing bs with
  | nil => cases bs <;> rfl
  | cons a as ih =>
    cases bs with
    | nil => rfl
    | cons b bs => rw [cmpCharList, cmpCharList, Ordering.then_swap, cmpOfLt_swap, ih]

theorem cmpString_eq_iff (a b : String) : cmpString a b = .eq ↔ a = b := by
  rw [cmpString, cmpCharList_eq_iff]
  constructor
  · intro h; cases a; cases b; exact congrArg String.mk h
  · intro h; rw [h]

theorem cmpString_self (a : String) : cmpString a a = .eq :=
  (cmpString_eq_iff a a).mpr rfl

theorem cmpString_swap (a b : String) : (cmpString a b).swap = cmpString b a :=
  cmpCharList_swap a.data b.data

/-- Constructor index, used to order types with different head constructors. -/
def Ty.ctorIdx : Ty → Nat
  | .reference _ => 0
  | .object _ => 1
  | .array _ => 2
  | .tuple _ => 3
  | .or _ => 4
  | .and _ => 5
  | .number => 6
  | .ident _ => 7
  | .string => 8
  | .boolean => 9

mutual

/-- A total order on `Ty`: the model of the `Ord` used by `.sorted()` in
`simplify_ty`.  Same-constructor payloads are compared lexicographically;
different constructors are ordered by `ctorIdx`. -/
def Ty.cmp : Ty → Ty → Ordering
  | .reference x, .reference y => cmpString x y
  | .object fs, .object gs => cmpFields fs gs
  | .array x, .array y => Ty.cmp x y
  | .tuple x, .tuple y => cmpList x y
  | .or x, .or y => cmpList x y
  | .and x, .and y => cmpList x y
  | .ident x, .ident y => cmpString x y
  | a, b => cmpOfLt a.ctorIdx b.ctorIdx

def cmpList : List Ty → List Ty → Ordering
  | [], [] => .eq
  | [], _ :: _ => .lt
  | _ :: _, [] => .gt
  | a :: as, b :: bs => (Ty.cmp a b).then (cmpList as bs)

def cmpFields : List (String × Ty × Bool) → List (String × Ty × Bool) → Ordering
  | [], [] => .eq
  | [], _ :: _ => .lt
  | _ :: _, [] => .gt
  | (n, t, o) :: as, (m, u, p) :: bs =>
    ((cmpString n m).then ((Ty.cmp t u).then (cmpOfLt o p))).then (cmpFields as bs)

end

theorem cmpList_eq_iff (as : List Ty)
    (ih : ∀ a ∈ as, ∀ b, Ty.cmp a b = .eq ↔ a = b) :
    ∀ bs, cmpList as bs = .eq ↔ as = bs := by
  induction as with
  | nil => intro bs; cases bs <;> simp [cmpList]
  | cons a as ihl =>
    intro bs
    cases bs with
    | nil => simp [cmpList]
    | cons b bs =>
      rw [cmpList, Ordering.then_eq_eq_iff,
        ih a (by simp), ihl (fun x hx => ih x (by simp [hx]))]
      simp

theorem cmpFields_eq_iff (as : List (String × Ty × Bool))
    (ih : ∀ a ∈ as, ∀ b, Ty.cmp a.2.1 b = .eq ↔ a.2.1 = b) :
    ∀ bs, cmpFields as bs = .eq ↔ as = bs := by
  induction as with
  | nil => intro bs; cases bs <;> simp [cmpFields]
  | cons a as ihl =>
    intro bs
    obtain ⟨n, t, o⟩ := a
    cases bs with
    | nil => simp [cmpFields]
    | cons b bs =>
      obtain ⟨m, u, p⟩ := b
      rw [cmpFields, Ordering.then_eq_eq_iff, Ordering.then_eq_eq_iff,
        Ordering.then_eq_eq_iff, ih (n, t, o) (by simp),
        ihl (fun x hx => ih x (by simp [hx]))]
      simp only [cmpOfLt_eq_iff, cmpString_eq_iff, List.cons.injEq, Prod.mk.injEq]
      try tauto

theorem Ty.cmp_eq_iff : ∀ a b : Ty, Ty.cmp a b = .eq ↔ a = b := by
  intro a
  induction a using Ty.sizeOf_ind with
  | step a ih =>
    intro b
    cases a <;> cases b <;>
      simp only [Ty.cmp, cmpOfLt_eq_iff, cmpOfLt_self, cmpString_eq_iff,
        cmpString_self, Ty.ctorIdx,
        Ty.reference.injEq, Ty.object.injEq, Ty.array.injEq, Ty.tuple.injEq,
        Ty.or.injEq, Ty.and.injEq, Ty.ident.injEq] <;>
      try exact iff_of_false (by decide) (fun h => Ty.noConfusion h)
    case array.array a b => exact ih a (by simp) b
    case object.object fs gs =>
      exact cmpFields_eq_iff fs
        (fun x hx => ih x.2.1 (by
          have := List.sizeOf_lt_of_mem hx
          obtain ⟨n, t, o⟩ := x
          simp only [Ty.object.sizeOf_spec]
          simp only [Prod.mk.sizeOf_spec] at this
          omega)) gs
    case tuple.tuple as bs =>
      exact cmpList_eq_iff as
        (fun x hx => ih x (by have := List.sizeOf_lt_of_mem hx; simp; omega)) bs
    case or.or as bs =>
      exact cmpList_eq_iff as
        (fun x hx => ih x (by have := List.sizeOf_lt_of_mem hx; simp; omega)) bs
    case and.and as bs =>
      exact cmpList_eq_iff as
        (fun x hx => ih x (by have := List.sizeOf_lt_of_mem hx; simp; omega)) bs

theorem Ty.cmp_self (a : Ty) : Ty.cmp a a = .eq := (Ty.cmp_eq_iff a a).mpr rfl

theorem cmpList_swap (as : List Ty)
    (ih : ∀ a ∈ as, ∀ b, (Ty.cmp a b).swap = Ty.cmp b a) :
    ∀ bs, (cmpList as bs).swap = cmpList bs as := by
  induction as with
  | nil => intro bs; cases bs <;> rfl
  | cons a as ihl =>
    intro bs
    cases bs with
    | nil => rfl
    | cons b bs =>
      rw [cmpList, cmpList, Ordering.then_swap, ih a (by simp),
        ihl (fun x hx => ih x (by simp [hx]))]

theorem cmpFields_swap (as : List (String × Ty × Bool))
    (ih : ∀ a ∈ as, ∀ b, (Ty.cmp a.2.1 b).swap = Ty.cmp b a.2.1) :
    ∀ bs, (cmpFields as bs).swap = cmpFields bs as := by
  induction as with
  | nil => intro bs; cases bs <;> rfl
  | cons a as ihl =>
    intro bs
    obtain ⟨n, t, o⟩ := a
    cases bs with
    | nil => rfl
    | cons b bs =>
      obtain ⟨m, u, p⟩ := b
      rw [cmpFields, cmpFields, Ordering.then_swap, Ordering.then_swap,
        Ordering.then_swap, ih (n, t, o) (by simp), cmpOfLt_swap, cmpString_swap,
        ihl (fun x hx => ih x (by simp [hx]))]

theorem Ty.cmp_swap : ∀ a b : Ty, (Ty.cmp a b).swap = Ty.cmp b a := by
  intro a
  induction a using Ty.sizeOf_ind with
  | step a ih =>
    intro b
    cases a <;> cases b <;>
      simp only [Ty.cmp] <;>
      try first
        | exact cmpOfLt_swap _ _
        | exact cmpString_swap _ _
    case array.array a b => exact ih a (by simp) b
    case object.object fs gs =>
      exact cmpFields_swap fs
        (fun x hx => ih x.2.1 (by
          have := List.sizeOf_lt_of_mem hx
          obtain ⟨n, t, o⟩ := x
          simp only [Ty.object.sizeOf_spec]
          simp only [Prod.mk.sizeOf_spec] at this
          omega)) gs
    case tuple.tuple as bs =>
      exact cmpList_swap as
        (fun x hx => ih x (by have := List.sizeOf_lt_of_mem hx; simp; omega)) bs
    case or.or as bs =>
      exact cmpList_swap as
        (fun x hx => ih x (by have := List.sizeOf_lt_of_mem hx; simp; omega)) bs
    case and.and as bs =>
      exact cmpList_swap as
        (fun x hx => ih x (by have := List.sizeOf_lt_of_mem hx; simp; omega)) bs

/-! ## Sorting and dedup, as used by `simplify_ty` -/

/-- `a` is at most `b` in the interned-type order. -/
def tyLE (a b : Ty) : Bool :=
  match Ty.cmp a b with
  | .gt => false
  | _ => true

def orderedInsertTy (a : Ty) : List Ty → List Ty
  | [] => [a]
  | b :: l => if tyLE a b then a :: b :: l else b :: orderedInsertTy a l

/-- Model of itertools `.sorted()` over the interned-type order (insertion sort;
any correct sort for a total antisymmetric order produces this list). -/
def sortTy : List Ty → List Ty
  | [] => []
  | a :: l => orderedInsertTy a (sortTy l)

/-- Model of itertools `.dedup()`: removes consecutive equal elements
(`PartialEq` on interned handles is structural equality). -/
def dedupTy : List Ty → List Ty
  | [] => []
  | [a] => [a]
  | a :: b :: l => if Ty.beq a b then dedupTy (b :: l) else a :: dedupTy (b :: l)

/-! ## `simplify_ty` from `src/lib.rs` -/

def Ty.isObject : Ty → Bool
  | .object _ => true
  | _ => false

/-- `BTreeMap::insert` on the name-sorted field list: returns the updated map
together with the previous value bound to the key, if any. -/
def insertField : List (String × Ty × Bool) → String → Ty × Bool →
    List (String × Ty × Bool) × Option (Ty × Bool)
  | [], name, p => ([(name, p.1, p.2)], none)
  | (m, t, o) :: rest, name, p =>
    match cmpString name m with
    | .eq => ((m, p.1, p.2) :: rest, some (t, o))
    | .lt => ((name, p.1, p.2) :: (m, t, o) :: rest, none)
    | .gt =>
      let r := insertField rest name p
      ((m, t, o) :: r.1, r.2)

/-- One iteration of the field-merging loop in the `And` branch of `simplify_ty`:
insert the new property; if a previous property existed and its type is an
`Ident` while the new type is `String`, re-insert the previous property. -/
def mergeStep (fields : List (String × Ty × Bool)) (field : String)
    (p : Ty × Bool) : List (String × Ty × Bool) :=
  match insertField fields field p with
  | (fields2, none) => fields2
  | (fields2, some old) =>
    match old.1, p.1 with
    | .ident _, .string => (insertField fields2 field old).1
    | _, _ => fields2

/-- Fold a member object's fields into the accumulated merged fields. -/
def mergeFieldsInto (acc : List (String × Ty × Bool)) :
    List (String × Ty × Bool) → List (String × Ty × Bool)
  | [] => acc
  | (n, t, o) :: fs => mergeFieldsInto (mergeStep acc n (t, o)) fs

/-- The object-merging loop in the `And` branch of `simplify_ty`.  Only reached
when every member is an `Object` (the non-object arm is `unreachable!()` in the
source; here it leaves the accumulator unchanged). -/
def mergeObjects (options : List Ty) : List (String × Ty × Bool) :=
  options.foldl
    (fun acc opt =>
      match opt with
      | .object fs => mergeFieldsInto acc fs
      | _ => acc)
    []

mutual

/-- Embedding of `simplify_ty` from `src/lib.rs`. -/
def simplify_ty : Ty → Ty
  | .reference s => .reference s
  | .object fs => .object (simplifyFields fs)
  | .array t => .array (simplify_ty t)
  | .tuple ts => .tuple (simplifyList ts)
  | .or ts => .or (dedupTy (sortTy (simplifyList ts)))
  | .and ts =>
    let options := dedupTy (sortTy (simplifyList ts))
    if options.all Ty.isObject then
      .object (mergeObjects options)
    else
      .and options
  | .number => .number
  | .ident s => .ident s
  | .string => .string
  | .boolean => .boolean

def simplifyList : List Ty → List Ty
  | [] => []
  | t :: ts => simplify_ty t :: simplifyList ts

def simplifyFields : List (String × Ty × Bool) → List (String × Ty × Bool)
  | [] => []
  | (n, t, o) :: fs => (n, simplify_ty t, o) :: simplifyFields fs

end

/-- Helper of `Ty::constants`: extracts the literal of every member when all
members are `Ident`s, and `none` otherwise. -/
def identValues : List Ty → Option (List String)
  | [] => some []
  | .ident s :: rest => (identValues rest).map (s :: ·)
  | _ => none

/-- Embedding of `Type::constants` from `src/lib.rs`. -/
def Ty.constants : Ty → Option (List String)
  | .or options => identValues options
  | _ => none

/-! ## Order and sorting lemmas -/

theorem tyLE_eq_false_iff {a b : Ty} : tyLE a b = false ↔ Ty.cmp a b = .gt := by
  unfold tyLE; cases Ty.cmp a b <;> simp

theorem tyLE_refl (a : Ty) : tyLE a a = true := by
  unfold tyLE; rw [Ty.cmp_self]

theorem tyLE_total {a b : Ty} (h : tyLE a b = false) : tyLE b a = true := by
  rw [tyLE_eq_false_iff] at h
  have hs := Ty.cmp_swap a b
  rw [h] at hs
  unfold tyLE
  rw [← hs]
  rfl

/-- Adjacent-sortedness of a list in the interned-type order. -/
def sortedTy : List Ty → Bool
  | [] => true
  | [_] => true
  | a :: b :: l => tyLE a b && sortedTy (b :: l)

/-- No two adjacent elements are equal. -/
def noAdjDup : List Ty → Bool
  | [] => true
  | [_] => true
  | a :: b :: l => !(Ty.beq a b) && noAdjDup (b :: l)

theorem mem_orderedInsertTy {x a : Ty} :
    ∀ {l}, x ∈ orderedInsertTy a l → x = a ∨ x ∈ l := by
  intro l
  induction l with
  | nil => simp [orderedInsertTy]
  | cons b l ih =>
    simp only [orderedInsertTy]
    split
    · intro h
      simpa using h
    · intro h
      rcases List.mem_cons.mp h with h | h
      · right; simp [h]
      · rcases ih h with h | h
        · left; exact h
        · right; simp [h]

theorem mem_sortTy {x : Ty} : ∀ {l}, x ∈ sortTy l → x ∈ l := by
  intro l
  induction l with
  | nil => simp [sortTy]
  | cons a l ih =>
    intro h
    rcases mem_orderedInsertTy h with h | h
    · simp [h]
    · simp [ih h]

theorem mem_dedupTy {x : Ty} : ∀ {l}, x ∈ dedupTy l → x ∈ l := by
  intro l
  induction l with
  | nil => simp [dedupTy]
  | cons a l ih =>
    cases l with
    | nil => simp [dedupTy]
    | cons b l =>
      simp only [dedupTy]
      split
      · intro h
        rename_i heq
        rw [(Ty.beq_iff a b).mp heq]
        exact List.mem_cons_of_mem _ (ih h)
      · intro h
        rcases List.mem_cons.mp h with h | h
        · simp [h]
        · exact List.mem_cons_of_mem _ (ih h)

theorem dedupTy_cons_head : ∀ (l : List Ty) (a : Ty), ∃ t, dedupTy (a :: l) = a :: t := by
  intro l
  induction l with
  | nil => intro a; exact ⟨[], rfl⟩
  | cons b l ih =>
    intro a
    by_cases h : a = b
    · subst h
      obtain ⟨t, ht⟩ := ih a
      exact ⟨t, by rw [dedupTy, if_pos (tyBeq_of_eq rfl), ht]⟩
    · exact ⟨dedupTy (b :: l), by rw [dedupTy, if_neg (not_tyBeq_of_ne h)]⟩

theorem sorted_orderedInsertTy (a : Ty) :
    ∀ {l}, sortedTy l = true → sortedTy (orderedInsertTy a l) = true := by
  intro l
  induction l with
  | nil => intro _; rfl
  | cons b l ih =>
    intro hs
    rw [orderedInsertTy]
    by_cases hab : tyLE a b = true
    · rw [if_pos hab, sortedTy, hab, hs]
      rfl
    · rw [if_neg hab]
      have hab' : tyLE a b = false := by simpa using hab
      have hba : tyLE b a = true := tyLE_total hab'
      cases l with
      | nil =>
        rw [orderedInsertTy, sortedTy, hba]
        rfl
      | cons c l =>
        have hs' := hs
        rw [sortedTy, Bool.and_eq_true] at hs'
        have hbc : tyLE b c = true := hs'.1
        have hcl : sortedTy (c :: l) = true := hs'.2
        have hI := ih hcl
        rw [orderedInsertTy] at hI ⊢
        by_cases hac : tyLE a c = true
        · rw [if_pos hac] at hI ⊢
          rw [sortedTy, hba, hI]
          rfl
        · rw [if_neg hac] at hI ⊢
          rw [sortedTy, hbc, hI]
          rfl

theorem sorted_sortTy : ∀ l : List Ty, sortedTy (sortTy l) = true := by
  intro l
  induction l with
  | nil => rfl
  | cons a l ih => exact sorted_orderedInsertTy a ih

theorem sortTy_of_sorted : ∀ {l : List Ty}, sortedTy l = true → sortTy l = l := by
  intro l
  induction l with
  | nil => intro _; rfl
  | cons a l ih =>
    intro hs
    cases l with
    | nil => rfl
    | cons b l =>
      rw [sortedTy, Bool.and_eq_true] at hs
      rw [sortTy, ih hs.2, orderedInsertTy, if_pos hs.1]

theorem sorted_dedupTy : ∀ {l : List Ty}, sortedTy l = true → sortedTy (dedupTy l) = true := by
  intro l
  induction l with
  | nil => intro _; rfl
  | cons a l ih =>
    intro hs
    cases l with
    | nil => rfl
    | cons b l =>
      rw [sortedTy, Bool.and_eq_true] at hs
      by_cases hab : a = b
      · rw [dedupTy, if_pos (tyBeq_of_eq hab)]
        exact ih hs.2
      · rw [dedupTy, if_neg (not_tyBeq_of_ne hab)]
        obtain ⟨t, ht⟩ := dedupTy_cons_head l b
        rw [ht]
        have := ih hs.2
        rw [ht] at this
        rw [sortedTy, hs.1, this]
        rfl

theorem noAdjDup_dedupTy : ∀ l : List Ty, noAdjDup (dedupTy l) = true := by
  intro l
  induction l with
  | nil => rfl
  | cons a l ih =>
    cases l with
    | nil => rfl
    | cons b l =>
      by_cases hab : a = b
      · rw [dedupTy, if_pos (tyBeq_of_eq hab)]
        exact ih
      · rw [dedupTy, if_neg (not_tyBeq_of_ne hab)]
        obtain ⟨t, ht⟩ := dedupTy_cons_head l b
        rw [ht]
        have := ih
        rw [ht] at this
        rw [noAdjDup, this]
        have hb : Ty.beq a b = false := by
          cases hbe : Ty.beq a b
          · rfl
          · exact absurd ((Ty.beq_iff a b).mp hbe) hab
        simp [hb]

theorem dedupTy_of_noAdjDup : ∀ {l : List Ty}, noAdjDup l = true → dedupTy l = l := by
  intro l
  induction l with
  | nil => intro _; rfl
  | cons a l ih =>
    intro hn
    cases l with
    | nil => rfl
    | cons b l =>
      rw [noAdjDup, Bool.and_eq_true] at hn
      have hab : Ty.beq a b = false := by simpa using hn.1
      rw [dedupTy, if_neg (by simp [hab]), ih hn.2]

/-- The canonicalization `sorted().dedup()` of member lists is idempotent. -/
theorem dedup_sort_idem (l : List Ty) :
    dedupTy (sortTy (dedupTy (sortTy l))) = dedupTy (sortTy l) := by
  rw [sortTy_of_sorted (sorted_dedupTy (sorted_sortTy l)),
    dedupTy_of_noAdjDup (noAdjDup_dedupTy _)]

/-! ## Idempotence of `simplify_ty` -/

theorem simplifyList_eq_map : ∀ l : List Ty, simplifyList l = l.map simplify_ty := by
  intro l
  induction l with
  | nil => rfl
  | cons t ts ih => rw [simplifyList, ih, List.map_cons]

theorem simplifyFields_eq_map : ∀ fs : List (String × Ty × Bool),
    simplifyFields fs = fs.map (fun f => (f.1, simplify_ty f.2.1, f.2.2)) := by
  intro fs
  induction fs with
  | nil => rfl
  | cons f fs ih =>
    obtain ⟨n, t, o⟩ := f
    rw [simplifyFields, ih, List.map_cons]

theorem simplifyList_fixed_of : ∀ {l : List Ty},
    (∀ x ∈ l, simplify_ty x = x) → simplifyList l = l := by
  intro l
  induction l with
  | nil => intro _; rfl
  | cons t ts ih =>
    intro h
    rw [simplifyList, h t (by simp), ih (fun x hx => h x (by simp [hx]))]

theorem simplifyFields_fixed_of : ∀ {fs : List (String × Ty × Bool)},
    (∀ f ∈ fs, simplify_ty f.2.1 = f.2.1) → simplifyFields fs = fs := by
  intro fs
  induction fs with
  | nil => intro _; rfl
  | cons f fs ih =>
    intro h
    obtain ⟨n, t, o⟩ := f
    rw [simplifyFields, show simplify_ty t = t from h (n, t, o) (by simp),
      ih (fun x hx => h x (by simp [hx]))]

theorem fields_fixed_of_simplifyFields_eq : ∀ {fs : List (String × Ty × Bool)},
    simplifyFields fs = fs → ∀ f ∈ fs, simplify_ty f.2.1 = f.2.1 := by
  intro fs
  induction fs with
  | nil => intro _ f hf; cases hf
  | cons g fs ih =>
    intro h f hf
    obtain ⟨n, t, o⟩ := g
    rw [simplifyFields, List.cons.injEq, Prod.mk.injEq, Prod.mk.injEq] at h
    rcases List.mem_cons.mp hf with hf | hf
    · rw [hf]
      exact h.1.2.1
    · exact ih h.2 f hf

theorem insertField_fixed {n : String} {p : Ty × Bool} :
    ∀ {fs : List (String × Ty × Bool)},
    (∀ f ∈ fs, simplify_ty f.2.1 = f.2.1) → simplify_ty p.1 = p.1 →
    (∀ f ∈ (insertField fs n p).1, simplify_ty f.2.1 = f.2.1) ∧
    (∀ q, (insertField fs n p).2 = some q → simplify_ty q.1 = q.1) := by
  intro fs
  induction fs with
  | nil =>
    intro _ hp
    refine ⟨fun f hf => ?_, fun q hq => ?_⟩
    · rw [insertField] at hf
      rcases List.mem_cons.mp hf with hf | hf
      · rw [hf]; exact hp
      · cases hf
    · rw [insertField] at hq
      cases hq
  | cons g fs ih =>
    intro hf hp
    obtain ⟨m, t, o⟩ := g
    have hrest : ∀ f ∈ fs, simplify_ty f.2.1 = f.2.1 := fun x hx => hf x (by simp [hx])
    have hhead : simplify_ty t = t := hf (m, t, o) (by simp)
    rw [insertField]
    cases hc : cmpString n m with
    | eq =>
      refine ⟨fun f hfm => ?_, fun q hq => ?_⟩
      · rcases List.mem_cons.mp hfm with hfm | hfm
        · rw [hfm]; exact hp
        · exact hrest f hfm
      · cases hq
        exact hhead
    | lt =>
      refine ⟨fun f hfm => ?_, fun q hq => ?_⟩
      · rcases List.mem_cons.mp hfm with hfm | hfm
        · rw [hfm]; exact hp
        · exact hf f hfm
      · cases hq
    | gt =>
      obtain ⟨ihf, iho⟩ := ih hrest hp
      refine ⟨fun f hfm => ?_, iho⟩
      rcases List.mem_cons.mp hfm with hfm | hfm
      · rw [hfm]; exact hhead
      · exact ihf f hfm

theorem mergeStep_fixed {fs : List (String × Ty × Bool)} {n : String} {p : Ty × Bool}
    (hf : ∀ f ∈ fs, simplify_ty f.2.1 = f.2.1) (hp : simplify_ty p.1 = p.1) :
    ∀ f ∈ mergeStep fs n p, simplify_ty f.2.1 = f.2.1 := by
  obtain ⟨h1, h2⟩ := insertField_fixed (n := n) (p := p) hf hp
  rw [mergeStep]
  cases hins : insertField fs n p with
  | mk fields2 old =>
    rw [hins] at h1 h2
    cases old with
    | none => exact h1
    | some old =>
      have hold : simplify_ty old.1 = old.1 := h2 old rfl
      obtain ⟨ot, ob⟩ := old
      obtain ⟨pt, po⟩ := p
      cases ot <;> cases pt <;> try exact h1
      exact (insertField_fixed h1 hold).1

theorem mergeFieldsInto_fixed :
    ∀ (fs acc : List (String × Ty × Bool)),
    (∀ f ∈ acc, simplify_ty f.2.1 = f.2.1) →
    (∀ f ∈ fs, simplify_ty f.2.1 = f.2.1) →
    ∀ f ∈ mergeFieldsInto acc fs, simplify_ty f.2.1 = f.2.1 := by
  intro fs
  induction fs with
  | nil =>
    intro acc hacc _
    exact hacc
  | cons g fs ih =>
    intro acc hacc hfs
    obtain ⟨n, t, o⟩ := g
    rw [mergeFieldsInto]
    exact ih _ (mergeStep_fixed hacc (hfs (n, t, o) (by simp)))
      (fun x hx => hfs x (by simp [hx]))

theorem mergeObjects_fixed_aux :
    ∀ (opts : List Ty) (acc : List (String × Ty × Bool)),
    (∀ f ∈ acc, simplify_ty f.2.1 = f.2.1) →
    (∀ o ∈ opts, simplify_ty o = o) →
    ∀ f ∈ opts.foldl
      (fun acc opt =>
        match opt with
        | .object fs => mergeFieldsInto acc fs
        | _ => acc) acc,
      simplify_ty f.2.1 = f.2.1 := by
  intro opts
  induction opts with
  | nil =>
    intro acc hacc _
    simpa using hacc
  | cons o os ih =>
    intro acc hacc hos
    rw [List.foldl_cons]
    refine ih _ ?_ (fun x hx => hos x (by simp [hx]))
    cases o with
    | object fs =>
      have hobj := hos (.object fs) (by simp)
      simp only [simplify_ty, Ty.object.injEq] at hobj
      exact mergeFieldsInto_fixed fs acc hacc
        (fields_fixed_of_simplifyFields_eq hobj)
    | reference s => exact hacc
    | array t => exact hacc
    | tuple ts => exact hacc
    | or ts => exact hacc
    | and ts => exact hacc
    | number => exact hacc
    | ident s => exact hacc
    | string => exact hacc
    | boolean => exact hacc

theorem mergeObjects_fixed (options : List Ty)
    (h : ∀ o ∈ options, simplify_ty o = o) :
    ∀ f ∈ mergeObjects options, simplify_ty f.2.1 = f.2.1 :=
  mergeObjects_fixed_aux options [] (by simp) h

theorem canon_members_fixed (ts : List Ty)
    (ih : ∀ y ∈ ts, simplify_ty (simplify_ty y) = simplify_ty y) :
    ∀ x ∈ dedupTy (sortTy (simplifyList ts)), simplify_ty x = x := by
  intro x hx
  have hx' : x ∈ simplifyList ts := mem_sortTy (mem_dedupTy hx)
  rw [simplifyList_eq_map] at hx'
  obtain ⟨y, hy, rfl⟩ := List.mem_map.mp hx'
  exact ih y hy

/-- `simplify_ty` is idempotent. -/
theorem simplify_ty_idem : ∀ t : Ty, simplify_ty (simplify_ty t) = simplify_ty t := by
  intro t
  induction t using Ty.sizeOf_ind with
  | step t ih =>
    cases t with
    | reference s => rfl
    | number => rfl
    | string => rfl
    | boolean => rfl
    | ident s => rfl
    | array t =>
      simp only [simplify_ty]
      rw [ih t (by simp)]
    | object fs =>
      simp only [simplify_ty, Ty.object.injEq]
      apply simplifyFields_fixed_of
      intro f hf
      rw [simplifyFields_eq_map] at hf
      obtain ⟨g, hg, rfl⟩ := List.mem_map.mp hf
      exact ih g.2.1 (by
        have := List.sizeOf_lt_of_mem hg
        obtain ⟨n, t, o⟩ := g
        simp only [Prod.mk.sizeOf_spec] at this
        simp only [Ty.object.sizeOf_spec]
        omega)
    | tuple ts =>
      simp only [simplify_ty, Ty.tuple.injEq]
      apply simplifyList_fixed_of
      intro x hx
      rw [simplifyList_eq_map] at hx
      obtain ⟨y, hy, rfl⟩ := List.mem_map.mp hx
      exact ih y (by have := List.sizeOf_lt_of_mem hy; simp; omega)
    | or ts =>
      have hfix := canon_members_fixed ts
        (fun y hy => ih y (by have := List.sizeOf_lt_of_mem hy; simp; omega))
      simp only [simplify_ty, Ty.or.injEq]
      rw [simplifyList_fixed_of hfix, dedup_sort_idem]
    | and ts =>
      have hfix := canon_members_fixed ts
        (fun y hy => ih y (by have := List.sizeOf_lt_of_mem hy; simp; omega))
      have hM : simplifyList (dedupTy (sortTy (simplifyList ts))) =
          dedupTy (sortTy (simplifyList ts)) := simplifyList_fixed_of hfix
      have hsortM : sortTy (dedupTy (sortTy (simplifyList ts))) =
          dedupTy (sortTy (simplifyList ts)) :=
        sortTy_of_sorted (sorted_dedupTy (sorted_sortTy _))
      have hdedupM : dedupTy (dedupTy (sortTy (simplifyList ts))) =
          dedupTy (sortTy (simplifyList ts)) :=
        dedupTy_of_noAdjDup (noAdjDup_dedupTy _)
      have e1 : simplify_ty (.and ts) =
          if (dedupTy (sortTy (simplifyList ts))).all Ty.isObject then
            .object (mergeObjects (dedupTy (sortTy (simplifyList ts))))
          else
            .and (dedupTy (sortTy (simplifyList ts))) := by
        simp only [simplify_ty]
      rw [e1]
      by_cases hobj : (dedupTy (sortTy (simplifyList ts))).all Ty.isObject = true
      · rw [if_pos hobj]
        simp only [simplify_ty, Ty.object.injEq]
        exact simplifyFields_fixed_of (mergeObjects_fixed _ hfix)
      · rw [if_neg hobj]
        simp only [simplify_ty]
        rw [hM, hsortM, hdedupM, if_neg hobj]

/-! ## Support lemmas for the union claims -/

/-- The member list of a union, empty for any other type. -/
def orMembers : Ty → List Ty
  | .or l => l
  | _ => []

/-- First-match association lookup on a field list (`BTreeMap::get`). -/
def lookupField : List (String × Ty × Bool) → String → Option (Ty × Bool)
  | [], _ => none
  | (m, t, o) :: rest, name => if name = m then some (t, o) else lookupField rest name

theorem lookupField_insertField :
    ∀ (fs : List (String × Ty × Bool)) (n : String) (p : Ty × Bool),
    lookupField (insertField fs n p).1 n = some p := by
  intro fs n p
  induction fs with
  | nil => simp [insertField, lookupField]
  | cons g fs ih =>
    obtain ⟨m, t, o⟩ := g
    rw [insertField]
    cases hc : cmpString n m with
    | eq =>
      have he : n = m := (cmpString_eq_iff n m).mp hc
      simp [lookupField, he]
    | lt => simp [lookupField]
    | gt =>
      have hne : n ≠ m := by
        intro he
        rw [he, cmpString_self] at hc
        cases hc
      simp [lookupField, hne, ih]

/-- A type is never a member of its own union: union members are strictly
smaller than the union. -/
theorem mem_ne_or {x : Ty} {l : List Ty} (h : x ∈ l) : x ≠ .or l := by
  intro he
  have h1 := List.sizeOf_lt_of_mem h
  rw [he] at h1
  simp only [Ty.or.sizeOf_spec] at h1
  omega

theorem tyLE_antisymm {a b : Ty} (h1 : tyLE a b = true) (h2 : tyLE b a = true) :
    a = b := by
  have hs := Ty.cmp_swap a b
  unfold tyLE at h1 h2
  cases hc : Ty.cmp a b with
  | eq => exact (Ty.cmp_eq_iff a b).mp hc
  | gt =>
    rw [hc] at h1
    cases h1
  | lt =>
    rw [hc] at hs
    rw [← hs] at h2
    simp [Ordering.swap] at h2

theorem simplify_or_eq (ts : List Ty) :
    simplify_ty (.or ts) = .or (dedupTy (sortTy (simplifyList ts))) := by
  simp only [simplify_ty]

theorem sortTy_pair (a b : Ty) :
    sortTy [a, b] = if tyLE a b = true then [a, b] else [b, a] := by
  show orderedInsertTy a [b] = _
  by_cases hab : tyLE a b = true
  · rw [orderedInsertTy, if_pos hab, if_pos hab]
  · rw [orderedInsertTy, if_neg hab, if_neg hab, orderedInsertTy]

theorem dedupTy_pair {a b : Ty} (h : a ≠ b) : dedupTy [a, b] = [a, b] := by
  rw [dedupTy, if_neg (not_tyBeq_of_ne h), dedupTy]

/-! ## Claim theorems for the canonicalizer -/

/-- C2: `simplify` is idempotent: for every `Type` value `t` constructible from
the `TypeKind` variants, `simplify(simplify(t)) == simplify(t)`. -/
theorem claim_C2_simplify_idempotent (t : Ty) :
    simplify_ty (simplify_ty t) = simplify_ty t :=
  simplify_ty_idem t

/-- C3: for an `And` whose members, after simplification and dedup, are all
`Object`s, `simplify` merges them into a single `Object` by inserting each
member's fields in order, resolving field conflicts by the new-value-wins rule
with the `Ident`-over-`String` exception; in particular
`simplify(And([{a: Ident("x")}, {a: String, b: Number}]))` is
`Object({a: Ident("x"), b: Number})`. -/
theorem claim_C3_and_merge :
    (∀ ts : List Ty,
        (dedupTy (sortTy (simplifyList ts))).all Ty.isObject = true →
        simplify_ty (.and ts) =
          .object (mergeObjects (dedupTy (sortTy (simplifyList ts))))) ∧
    simplify_ty (.and [.object [("a", .ident "x", false)],
        .object [("a", .string, false), ("b", .number, false)]]) =
      .object [("a", .ident "x", false), ("b", .number, false)] := by
  constructor
  · intro ts hobj
    simp only [simplify_ty]
    rw [if_pos hobj]
  · decide

theorem claim_C3_and_merge_witness :
    (dedupTy (sortTy (simplifyList [Ty.object [("a", .ident "x", false)],
        Ty.object [("a", .string, false), ("b", .number, false)]]))).all
      Ty.isObject = true ∧
    simplify_ty (.and [Ty.object [("a", .ident "x", false)],
        Ty.object [("a", .string, false), ("b", .number, false)]]) =
      .object (mergeObjects (dedupTy (sortTy (simplifyList
        [Ty.object [("a", .ident "x", false)],
         Ty.object [("a", .string, false), ("b", .number, false)]])))) :=
  ⟨by decide, claim_C3_and_merge.1 _ (by decide)⟩

/-- C4 counterexample: the claim quantifies over arbitrary distinct `Type`s
`A` and `B`; taking `A = Or([Number])` and `B = Or([Number, Number])`, which are
distinct, `simplify(Or([A, A, B]))` is a one-member union, not two-member,
because the members coincide after simplification. -/
theorem claim_C4_counterexample :
    Ty.or [.number] ≠ Ty.or [.number, .number] ∧
    (orMembers (simplify_ty (.or [.or [.number], .or [.number],
        .or [.number, .number]]))).length = 1 := by
  decide

/-- C4 (amended): union simplification deduplicates and is order-independent:
for any `A` and `B` whose simplifications are distinct, `simplify(Or([A, A, B]))`
is a two-member union, and for all `A` and `B`,
`simplify(Or([A, B])) == simplify(Or([B, A]))`. -/
theorem claim_C4_union_dedup :
    (∀ A B : Ty, simplify_ty A ≠ simplify_ty B →
      (orMembers (simplify_ty (.or [A, A, B]))).length = 2) ∧
    (∀ A B : Ty, simplify_ty (.or [A, B]) = simplify_ty (.or [B, A])) := by
  constructor
  · intro A B h
    rw [simplify_or_eq,
      show simplifyList [A, A, B] = [simplify_ty A, simplify_ty A, simplify_ty B] from by
        rw [simplifyList_eq_map]; rfl]
    have h1 : sortTy [simplify_ty A, simplify_ty A, simplify_ty B] =
        orderedInsertTy (simplify_ty A) (sortTy [simplify_ty A, simplify_ty B]) := rfl
    rw [h1, sortTy_pair]
    by_cases hab : tyLE (simplify_ty A) (simplify_ty B) = true
    · rw [if_pos hab, orderedInsertTy, if_pos (tyLE_refl _),
        dedupTy, if_pos (tyBeq_of_eq rfl), dedupTy_pair h]
      rfl
    · rw [if_neg hab, orderedInsertTy, if_neg hab, orderedInsertTy,
        if_pos (tyLE_refl _), dedupTy, if_neg (not_tyBeq_of_ne (Ne.symm h)),
        dedupTy, if_pos (tyBeq_of_eq rfl), dedupTy]
      rfl
  · intro A B
    rw [simplify_or_eq, simplify_or_eq,
      show simplifyList [A, B] = [simplify_ty A, simplify_ty B] from by
        rw [simplifyList_eq_map]; rfl,
      show simplifyList [B, A] = [simplify_ty B, simplify_ty A] from by
        rw [simplifyList_eq_map]; rfl,
      sortTy_pair, sortTy_pair]
    by_cases hab : tyLE (simplify_ty A) (simplify_ty B) = true
    · by_cases hba : tyLE (simplify_ty B) (simplify_ty A) = true
      · rw [tyLE_antisymm hab hba]
      · rw [if_pos hab, if_neg hba]
    · have hba : tyLE (simplify_ty B) (simplify_ty A) = true :=
        tyLE_total (by simpa using hab)
      rw [if_neg hab, if_pos hba]

theorem claim_C4_union_dedup_witness :
    simplify_ty Ty.string ≠ simplify_ty Ty.number ∧
    (orMembers (simplify_ty (.or [Ty.string, Ty.string, Ty.number]))).length = 2 ∧
    simplify_ty (.or [Ty.string, Ty.number]) = simplify_ty (.or [Ty.number, Ty.string]) :=
  ⟨by decide, claim_C4_union_dedup.1 Ty.string Ty.number (by decide),
    claim_C4_union_dedup.2 Ty.string Ty.number⟩

/-- C9: `simplify` does not flatten nested unions: for distinct simplified `A`
and `B`, `simplify(Or([A, Or([A, B])]))` is a two-member union whose members are
`A` and the nested (canonicalized) union of `A` and `B`, not the flattened
union of `A` and `B`. -/
theorem claim_C9_nested_union_opaque (A B : Ty) (hA : simplify_ty A = A)
    (hB : simplify_ty B = B) (hAB : A ≠ B) :
    ∃ l, (l = [A, B] ∨ l = [B, A]) ∧
      (simplify_ty (.or [A, .or [A, B]]) = .or [A, .or l] ∨
       simplify_ty (.or [A, .or [A, B]]) = .or [.or l, A]) ∧
      simplify_ty (.or [A, .or [A, B]]) ≠ simplify_ty (.or [A, B]) := by
  have hinner : simplify_ty (.or [A, B]) = .or (dedupTy (sortTy [A, B])) := by
    rw [simplify_or_eq, show simplifyList [A, B] = [A, B] from by
      rw [simplifyList_eq_map]; simp [hA, hB]]
  by_cases hab : tyLE A B = true
  · have hl : simplify_ty (.or [A, B]) = .or [A, B] := by
      rw [hinner, sortTy_pair, if_pos hab, dedupTy_pair hAB]
    have hne : A ≠ Ty.or [A, B] := mem_ne_or (by simp)
    have houter : simplify_ty (.or [A, .or [A, B]]) =
        .or (dedupTy (sortTy [A, .or [A, B]])) := by
      rw [simplify_or_eq, show simplifyList [A, .or [A, B]] = [A, .or [A, B]] from by
        rw [simplifyList_eq_map]; simp [hA, hl]]
    refine ⟨[A, B], Or.inl rfl, ?_, ?_⟩
    · rw [houter, sortTy_pair]
      by_cases hax : tyLE A (Ty.or [A, B]) = true
      · left
        rw [if_pos hax, dedupTy_pair hne]
      · right
        rw [if_neg hax, dedupTy_pair (Ne.symm hne)]
    · rw [houter, hl, sortTy_pair]
      by_cases hax : tyLE A (Ty.or [A, B]) = true
      · rw [if_pos hax, dedupTy_pair hne]
        intro he
        rw [Ty.or.injEq, List.cons.injEq] at he
        obtain ⟨-, he2⟩ := he
        rw [List.cons.injEq] at he2
        exact (mem_ne_or (show B ∈ [A, B] by simp)) he2.1.symm
      · rw [if_neg hax, dedupTy_pair (Ne.symm hne)]
        intro he
        rw [Ty.or.injEq, List.cons.injEq] at he
        exact (mem_ne_or (show A ∈ [A, B] by simp)) he.1.symm
  · have hl : simplify_ty (.or [A, B]) = .or [B, A] := by
      rw [hinner, sortTy_pair, if_neg hab, dedupTy_pair (Ne.symm hAB)]
    have hne : A ≠ Ty.or [B, A] := mem_ne_or (by simp)
    have houter : simplify_ty (.or [A, .or [A, B]]) =
        .or (dedupTy (sortTy [A, .or [B, A]])) := by
      rw [simplify_or_eq, show simplifyList [A, .or [A, B]] = [A, .or [B, A]] from by
        rw [simplifyList_eq_map]; simp [hA, hl]]
    refine ⟨[B, A], Or.inr rfl, ?_, ?_⟩
    · rw [houter, sortTy_pair]
      by_cases hax : tyLE A (Ty.or [B, A]) = true
      · left
        rw [if_pos hax, dedupTy_pair hne]
      · right
        rw [if_neg hax, dedupTy_pair (Ne.symm hne)]
    · rw [houter, hl, sortTy_pair]
      by_cases hax : tyLE A (Ty.or [B, A]) = true
      · rw [if_pos hax, dedupTy_pair hne]
        intro he
        rw [Ty.or.injEq, List.cons.injEq] at he
        exact hAB he.1
      · rw [if_neg hax, dedupTy_pair (Ne.symm hne)]
        intro he
        rw [Ty.or.injEq, List.cons.injEq] at he
        exact (mem_ne_or (show B ∈ [B, A] by simp)) he.1.symm

theorem claim_C9_witness :
    simplify_ty Ty.string = Ty.string ∧ simplify_ty Ty.number = Ty.number ∧
    Ty.string ≠ Ty.number ∧
    (∃ l, (l = [Ty.string, Ty.number] ∨ l = [Ty.number, Ty.string]) ∧
      (simplify_ty (.or [Ty.string, .or [Ty.string, Ty.number]]) =
          .or [Ty.string, .or l] ∨
       simplify_ty (.or [Ty.string, .or [Ty.string, Ty.number]]) =
          .or [.or l, Ty.string]) ∧
      simplify_ty (.or [Ty.string, .or [Ty.string, Ty.number]]) ≠
        simplify_ty (.or [Ty.string, Ty.number])) :=
  ⟨by decide, by decide, by decide,
    claim_C9_nested_union_opaque Ty.string Ty.number (by decide) (by decide)
      (by decide)⟩

/-- C10: in the `And`-to-`Object` merge, conflict resolution applies to the
whole `Property` including its `optional` flag: when the new value wins the
field maps to the new member's full property, and in the `Ident`-versus-`String`
exception the existing property is retained with its original optionality. -/
theorem claim_C10_conflict_whole_property :
    ∀ (fields : List (String × Ty × Bool)) (field : String) (p : Ty × Bool)
      (fields2 : List (String × Ty × Bool)) (old : Ty × Bool),
    insertField fields field p = (fields2, some old) →
    ((∃ s, old.1 = .ident s) → p.1 = .string →
      lookupField (mergeStep fields field p) field = some old) ∧
    (((∀ s, old.1 ≠ .ident s) ∨ p.1 ≠ .string) →
      lookupField (mergeStep fields field p) field = some p) := by
  intro fields field p fields2 old hins
  obtain ⟨ot, ob⟩ := old
  obtain ⟨pt, po⟩ := p
  constructor
  · rintro ⟨s, hs⟩ hp
    have hs' : ot = .ident s := hs
    have hp' : pt = .string := hp
    subst hs'
    subst hp'
    rw [mergeStep, hins]
    exact lookupField_insertField fields2 field (.ident s, ob)
  · intro hcase
    rw [mergeStep, hins]
    have hlk := lookupField_insertField fields field (pt, po)
    rw [hins] at hlk
    cases ot <;> cases pt <;> try exact hlk
    exfalso
    rcases hcase with h | h
    · exact h _ rfl
    · exact h rfl

theorem claim_C10_witness :
    insertField [("a", Ty.ident "x", true)] "a" (Ty.string, false) =
      ([("a", Ty.string, false)], some (Ty.ident "x", true)) ∧
    lookupField (mergeStep [("a", Ty.ident "x", true)] "a" (Ty.string, false))
        "a" = some (Ty.ident "x", true) :=
  ⟨by decide,
    (claim_C10_conflict_whole_property [("a", Ty.ident "x", true)] "a"
      (Ty.string, false) [("a", Ty.string, false)] (Ty.ident "x", true)
      (by decide)).1 ⟨"x", rfl⟩ rfl⟩

/-! ## The OpenAPI document model

Only the parts of `openapiv3` that `src/lib.rs` reads.  `IndexMap`s become
association lists in document order; `BTreeMap`s are name-sorted association
lists built by sorted insertion. -/

/-- `oapi::Discriminator`: `property_name`, `mapping` (tag → schema name, in
document order) and extension keys (only emptiness is observed). -/
structure Discriminator where
  property_name : String
  mapping : List (String × String)
  extensions : List String

/-- `oapi::SchemaData`: only the discriminator is read. -/
structure SchemaData where
  discriminator : Option Discriminator

mutual

/-- `oapi::Schema`. -/
inductive OapiSchema where
  | mk (schema_data : SchemaData) (schema_kind : SchemaKind) : OapiSchema

/-- `oapi::SchemaKind`. -/
inductive SchemaKind where
  | type (ty : OapiType) : SchemaKind
  | oneOf (one_of : List SchemaOrRef) : SchemaKind
  | allOf (all_of : List SchemaOrRef) : SchemaKind
  | anyOf (any_of : List SchemaOrRef) : SchemaKind
  | not (inner : SchemaOrRef) : SchemaKind
  | any : SchemaKind

/-- `oapi::Type`: String carries its enumeration, Object its properties (in
document order) and required names, Array its item schema and bounds. -/
inductive OapiType where
  | string (enumeration : List (Option String)) : OapiType
  | number : OapiType
  | integer : OapiType
  | object (properties : List (String × SchemaOrRef)) (required : List String) : OapiType
  | array (items : Option SchemaOrRef) (min_items max_items : Option Nat) : OapiType
  | boolean : OapiType

/-- `oapi::ReferenceOr<oapi::Schema>`. -/
inductive SchemaOrRef where
  | reference (reference : String) : SchemaOrRef
  | item (schema : OapiSchema) : SchemaOrRef

end

def OapiSchema.kind : OapiSchema → SchemaKind
  | .mk _ k => k

def OapiSchema.data : OapiSchema → SchemaData
  | .mk d _ => d

/-- `components.schemas` of the document; `components` itself is optional. -/
structure Components where
  schemas : List (String × SchemaOrRef)

structure OpenAPI where
  components : Option Components

/-- The failure modes of the generator.  The source panics
(`todo!`/`unreachable!`/`assert!`/`unwrap`); the embedding returns them as
values, named by the spec's error taxonomy.  `outOfFuel` is an artifact of the
fuel-bounded embedding (the source diverges or panics inside salsa on cyclic
references). -/
inductive Err where
  | unsupportedConstruct
  | typeMismatch
  | unresolvedReference
  | outOfFuel
  deriving DecidableEq, Repr

instance {ε α : Type} [DecidableEq ε] [DecidableEq α] : DecidableEq (Except ε α)
  | .error e1, .error e2 =>
    if h : e1 = e2 then .isTrue (h ▸ rfl)
    else .isFalse (fun he => h (Except.error.inj he))
  | .ok a1, .ok a2 =>
    if h : a1 = a2 then .isTrue (h ▸ rfl)
    else .isFalse (fun he => h (Except.ok.inj he))
  | .error _, .ok _ => .isFalse (fun he => Except.noConfusion he)
  | .ok _, .error _ => .isFalse (fun he => Except.noConfusion he)

/-- `str::strip_prefix` over character lists (kernel-reducible). -/
def stripLeading (pfx s : String) : Option String :=
  if pfx.data.isPrefixOf s.data then some (String.mk (s.data.drop pfx.data.length))
  else none

/-- `str::contains(char)`. -/
def containsChar (s : String) (c : Char) : Bool :=
  s.data.contains c

/-- `IndexMap::get` by key. -/
def lookupAssoc {α : Type} : List (String × α) → String → Option α
  | [], _ => none
  | (k, v) :: rest, name => if name = k then some v else lookupAssoc rest name

/-- `Vec::contains` for strings. -/
def containsStr : List String → String → Bool
  | [], _ => false
  | x :: rest, s => if x = s then true else containsStr rest s

/-- Unwraps every enumeration entry (`e.clone().unwrap()` per member). -/
def unwrapEnum : List (Option String) → Option (List String)
  | [] => some []
  | some s :: rest => (unwrapEnum rest).map (s :: ·)
  | none :: _ => none

/-- `BTreeMap::insert` for `name → Type` maps (`query`, `path_params`). -/
def insertAssoc : List (String × Ty) → String → Ty → List (String × Ty)
  | [], name, ty => [(name, ty)]
  | (m, t) :: rest, name, ty =>
    match cmpString name m with
    | .eq => (m, ty) :: rest
    | .lt => (name, ty) :: (m, t) :: rest
    | .gt => (m, t) :: insertAssoc rest name ty

/-- `schema_by_name` from `src/lib.rs`: strips the `#/components/schemas/`
prefix recursively, then looks the name up in the component schema table.
`ok none` is the source's `None` (absent components or name); a reference
stored in the table is `todo!()`. -/
def schema_by_name (fuel : Nat) (api : OpenAPI) (name : String) :
    Except Err (Option OapiSchema) :=
  match fuel with
  | 0 => .error .outOfFuel
  | fuel + 1 =>
    match stripLeading "#/components/schemas/" name with
    | some name2 => schema_by_name fuel api name2
    | none =>
      match api.components with
      | none => .ok none
      | some comps =>
        match lookupAssoc comps.schemas name with
        | none => .ok none
        | some (.reference _) => .error .unsupportedConstruct
        | some (.item schema) => .ok (some schema)

/-- `resolve_schema` from `src/lib.rs`: a reference is looked up by name and
the `Option` unwrapped (panic → `unresolvedReference`); an inline schema is
itself. -/
def resolve_schema (fuel : Nat) (api : OpenAPI) (schema : SchemaOrRef) :
    Except Err OapiSchema :=
  match schema with
  | .reference r =>
    match schema_by_name fuel api r with
    | .error e => .error e
    | .ok none => .error .unresolvedReference
    | .ok (some s) => .ok s
  | .item s => .ok s

mutual

/-- `resolve_schema_ty` from `src/lib.rs`. -/
def resolve_schema_ty (fuel : Nat) (api : OpenAPI) (schema : SchemaOrRef) :
    Except Err Ty :=
  match fuel with
  | 0 => .error .outOfFuel
  | fuel + 1 =>
    match resolve_schema fuel api schema with
    | .error e => .error e
    | .ok s => schema_ty fuel api s

/-- `shallow_schema_ty` from `src/lib.rs`: a `#/components/schemas/` reference
whose name has no underscore stays a `Reference` placeholder; with an
underscore it is resolved and inlined; any other reference shape is `todo!()`;
an inline schema is resolved directly. -/
def shallow_schema_ty (fuel : Nat) (api : OpenAPI) (schema : SchemaOrRef) :
    Except Err Ty :=
  match fuel with
  | 0 => .error .outOfFuel
  | fuel + 1 =>
    match schema with
    | .reference r =>
      match stripLeading "#/components/schemas/" r with
      | some name =>
        if containsChar name '_' then resolve_schema_ty fuel api schema
        else .ok (.reference name)
      | none => .error .unsupportedConstruct
    | .item s => schema_ty fuel api s

/-- `ty_by_name` from `src/lib.rs`. -/
def ty_by_name (fuel : Nat) (api : OpenAPI) (name : String) : Except Err Ty :=
  match fuel with
  | 0 => .error .outOfFuel
  | fuel + 1 => shallow_schema_ty fuel api (.reference name)

/-- The property loop of the object branch of `schema_ty`: each property is
resolved shallowly and inserted into the `BTreeMap` with
`optional = !required.contains(name)`. -/
def objectProperties (fuel : Nat) (api : OpenAPI)
    (props : List (String × SchemaOrRef)) (required : List String)
    (acc : List (String × Ty × Bool)) : Except Err (List (String × Ty × Bool)) :=
  match fuel with
  | 0 => .error .outOfFuel
  | fuel + 1 =>
    match props with
    | [] => .ok acc
    | (name, prop) :: rest =>
      match shallow_schema_ty fuel api prop with
      | .error e => .error e
      | .ok ty =>
        objectProperties fuel api rest required
          (insertField acc name (ty, !containsStr required name)).1

/-- The discriminator loop of `schema_ty`: per mapping entry `(name, rest)`,
`And` of the one-field marker object `{property_name: Ident(name)}` (required)
and `ty_by_name rest`. -/
def discriminatorMembers (fuel : Nat) (api : OpenAPI) (pname : String)
    (mapping : List (String × String)) : Except Err (List Ty) :=
  match fuel with
  | 0 => .error .outOfFuel
  | fuel + 1 =>
    match mapping with
    | [] => .ok []
    | (name, rest) :: more =>
      match ty_by_name fuel api rest with
      | .error e => .error e
      | .ok ty =>
        match discriminatorMembers fuel api pname more with
        | .error e => .error e
        | .ok members =>
          .ok (.and [.object [(pname, Ty.ident name, false)], ty] :: members)

/-- The member loop of the `OneOf`/`AllOf` branches of `schema_ty`. -/
def shallowListTys (fuel : Nat) (api : OpenAPI) (items : List SchemaOrRef) :
    Except Err (List Ty) :=
  match fuel with
  | 0 => .error .outOfFuel
  | fuel + 1 =>
    match items with
    | [] => .ok []
    | r :: rest =>
      match shallow_schema_ty fuel api r with
      | .error e => .error e
      | .ok ty =>
        match shallowListTys fuel api rest with
        | .error e => .error e
        | .ok tys => .ok (ty :: tys)

/-- `schema_ty` from `src/lib.rs`. -/
def schema_ty (fuel : Nat) (api : OpenAPI) (s : OapiSchema) : Except Err Ty :=
  match fuel with
  | 0 => .error .outOfFuel
  | fuel + 1 =>
    match s with
    | .mk sdata skind =>
      match skind with
      | .type t =>
        match t with
        | .string enumeration =>
          if enumeration.isEmpty then .ok .string
          else
            match unwrapEnum enumeration with
            | none => .error .unsupportedConstruct
            | some vals => .ok (.or (vals.map Ty.ident))
        | .number => .ok .number
        | .integer => .ok .number
        | .object props required =>
          match objectProperties fuel api props required [] with
          | .error e => .error e
          | .ok properties =>
            match sdata.discriminator with
            | some disc =>
              if disc.extensions.isEmpty then
                match disc.mapping with
                | [] => .error .unsupportedConstruct
                | [_] => .error .unsupportedConstruct
                | _ =>
                  match discriminatorMembers fuel api disc.property_name
                      disc.mapping with
                  | .error e => .error e
                  | .ok members => .ok (.or members)
              else .error .unsupportedConstruct
            | none => .ok (.object properties)
        | .array items mi ma =>
          match items with
          | none => .error .unsupportedConstruct
          | some itemRef =>
            match shallow_schema_ty fuel api itemRef with
            | .error e => .error e
            | .ok ty =>
              match mi, ma with
              | some m1, some m2 =>
                if m1 = m2 then .ok (.tuple (List.replicate m1 ty))
                else .error .unsupportedConstruct
              | none, none => .ok (.array ty)
              | _, _ => .error .unsupportedConstruct
        | .boolean => .ok .boolean
      | .oneOf one_of =>
        match shallowListTys fuel api one_of with
        | .error e => .error e
        | .ok tys => .ok (.or tys)
      | .allOf all_of =>
        match shallowListTys fuel api all_of with
        | .error e => .error e
        | .ok tys => .ok (.and tys)
      | .anyOf _ => .error .unsupportedConstruct
      | .not _ => .error .unsupportedConstruct
      | .any => .error .unsupportedConstruct

end

/-! ## Operation extraction (`operation` in `src/lib.rs`) -/

/-- `oapi::ReferenceOr` for non-schema payloads. -/
inductive RefOr (α : Type) where
  | reference (reference : String) : RefOr α
  | item (value : α) : RefOr α

/-- `oapi::ParameterSchemaOrContent`; the `Content` payload is never read
(`todo!()`). -/
inductive ParameterSchemaOrContent where
  | schema (schema : SchemaOrRef) : ParameterSchemaOrContent
  | content : ParameterSchemaOrContent

/-- `oapi::ParameterData`: only `name` and `format` are read. -/
structure ParameterData where
  name : String
  format : ParameterSchemaOrContent

/-- `oapi::Parameter`. -/
inductive Parameter where
  | query (parameter_data : ParameterData) : Parameter
  | header (parameter_data : ParameterData) : Parameter
  | path (parameter_data : ParameterData) : Parameter
  | cookie (parameter_data : ParameterData) : Parameter

/-- `oapi::MediaType`: only the schema is read. -/
structure MediaType where
  schema : Option SchemaOrRef

/-- `oapi::RequestBody`: its content map, in document order. -/
structure RequestBody where
  content : List (String × MediaType)

/-- `oapi::Response`: its content map, in document order. -/
structure Response where
  content : List (String × MediaType)

/-- `oapi::Operation`: parameters, request body, responses (status → response,
in document order). -/
structure OapiOperation where
  parameters : List (RefOr Parameter)
  request_body : Option (RefOr RequestBody)
  responses : List (String × RefOr Response)

/-- `RequestKind` from `src/lib.rs`. -/
inductive RequestKind where
  | json (ty : Ty) : RequestKind
  deriving DecidableEq

/-- `ResponseKind` from `src/lib.rs`. -/
inductive ResponseKind where
  | plain : ResponseKind
  | json (ty : Ty) : ResponseKind
  | eventStream (ty : Ty) : ResponseKind
  deriving DecidableEq

/-- `Operation` from `src/lib.rs`: `query` and `path_params` are
`BTreeMap<String, Type>`s. -/
structure Operation where
  path : String
  query : List (String × Ty)
  path_params : List (String × Ty)
  body : Option RequestKind
  response : Option ResponseKind
  deriving DecidableEq

/-- The parameter loop of `operation`: query/path parameters with a schema are
resolved shallowly and recorded; parameter references, header and cookie
parameters, and content-based formats are `todo!()`. -/
def processParams (fuel : Nat) (api : OpenAPI) (params : List (RefOr Parameter))
    (path_params query : List (String × Ty)) :
    Except Err (List (String × Ty) × List (String × Ty)) :=
  match fuel with
  | 0 => .error .outOfFuel
  | fuel + 1 =>
    match params with
    | [] => .ok (path_params, query)
    | .reference _ :: _ => .error .unsupportedConstruct
    | .item param :: rest =>
      match param with
      | .query pd =>
        match pd.format with
        | .schema schema =>
          match shallow_schema_ty fuel api schema with
          | .error e => .error e
          | .ok ty =>
            processParams fuel api rest path_params (insertAssoc query pd.name ty)
        | .content => .error .unsupportedConstruct
      | .header _ => .error .unsupportedConstruct
      | .path pd =>
        match pd.format with
        | .schema schema =>
          match shallow_schema_ty fuel api schema with
          | .error e => .error e
          | .ok ty =>
            processParams fuel api rest (insertAssoc path_params pd.name ty) query
        | .content => .error .unsupportedConstruct
      | .cookie _ => .error .unsupportedConstruct

/-- The request-body handling of `operation`: exactly one content entry
(`assert_eq!(body.content.len(), 1)`), a schema must be present, and only
`application/json` is recognized. -/
def processBody (fuel : Nat) (api : OpenAPI) (body : RefOr RequestBody) :
    Except Err RequestKind :=
  match fuel with
  | 0 => .error .outOfFuel
  | fuel + 1 =>
    match body with
    | .reference _ => .error .unsupportedConstruct
    | .item body =>
      match body.content with
      | [(media_type, value)] =>
        match value.schema with
        | none => .error .unsupportedConstruct
        | some schema =>
          match shallow_schema_ty fuel api schema with
          | .error e => .error e
          | .ok ty0 =>
            if media_type = "application/json" then .ok (.json (simplify_ty ty0))
            else .error .unsupportedConstruct
      | _ => .error .unsupportedConstruct

/-- The debug loop at the top of the response handling: every content entry's
schema is resolved and simplified (for logging), so a failing schema fails the
operation even before the single-entry assertion. -/
def debugResolveContents (fuel : Nat) (api : OpenAPI)
    (content : List (String × MediaType)) : Except Err Unit :=
  match fuel with
  | 0 => .error .outOfFuel
  | fuel + 1 =>
    match content with
    | [] => .ok ()
    | (_, value) :: rest =>
      match value.schema with
      | none => debugResolveContents fuel api rest
      | some schema =>
        match shallow_schema_ty fuel api schema with
        | .error e => .error e
        | .ok ty =>
          let _ := simplify_ty ty
          debugResolveContents fuel api rest

/-- One response entry of `operation`: response references are `todo!()`;
the content map must have exactly one entry with a schema; `text/plain`
asserts the simplified type is exactly `String` (`typeMismatch` otherwise);
`application/json` and `text/event-stream` wrap the type; other media types
are `todo!()`. -/
def processResponse (fuel : Nat) (api : OpenAPI) (res : RefOr Response) :
    Except Err ResponseKind :=
  match fuel with
  | 0 => .error .outOfFuel
  | fuel + 1 =>
    match res with
    | .reference _ => .error .unsupportedConstruct
    | .item response =>
      match debugResolveContents fuel api response.content with
      | .error e => .error e
      | .ok _ =>
        match response.content with
        | [(media_type, value)] =>
          match value.schema with
          | none => .error .unsupportedConstruct
          | some schema =>
            match shallow_schema_ty fuel api schema with
            | .error e => .error e
            | .ok ty0 =>
              let ty := simplify_ty ty0
              if media_type = "text/plain" then
                if ty = Ty.string then .ok .plain else .error .typeMismatch
              else if media_type = "application/json" then .ok (.json ty)
              else if media_type = "text/event-stream" then .ok (.eventStream ty)
              else .error .unsupportedConstruct
        | _ => .error .unsupportedConstruct

/-- The response loop of `operation`: every entry is processed and the last
one processed wins. -/
def processResponses (fuel : Nat) (api : OpenAPI)
    (resps : List (String × RefOr Response)) (acc : Option ResponseKind) :
    Except Err (Option ResponseKind) :=
  match fuel with
  | 0 => .error .outOfFuel
  | fuel + 1 =>
    match resps with
    | [] => .ok acc
    | (_, res) :: rest =>
      match processResponse fuel api res with
      | .error e => .error e
      | .ok rk => processResponses fuel api rest (some rk)

/-- `operation` from `src/lib.rs`. -/
def operation (fuel : Nat) (api : OpenAPI) (path : String)
    (op : OapiOperation) : Except Err Operation :=
  match fuel with
  | 0 => .error .outOfFuel
  | fuel + 1 =>
    match processParams fuel api op.parameters [] [] with
    | .error e => .error e
    | .ok (path_params, query) =>
      match (match op.request_body with
             | none => Except.ok none
             | some b =>
               match processBody fuel api b with
               | .error e => .error e
               | .ok rk => .ok (some rk)) with
      | .error e => .error e
      | .ok body =>
        match processResponses fuel api op.responses none with
        | .error e => .error e
        | .ok response =>
          .ok { path := path, query := query, path_params := path_params,
                body := body, response := response }

/-! ## Concrete documents for the resolver and extractor claims -/

def Ty.isAnd : Ty → Bool
  | .and _ => true
  | _ => false

/-- A document with no components. -/
def emptyApi : OpenAPI := ⟨none⟩

def numberSchema : OapiSchema := .mk ⟨none⟩ (.type .number)

/-- `Foo`: a plain object schema `{foo: number}` with `foo` required. -/
def fooSchema : OapiSchema :=
  .mk ⟨none⟩ (.type (.object [("foo", .item numberSchema)] ["foo"]))

/-- `Bar`: a plain object schema `{bar: string}` with `bar` required. -/
def barSchema : OapiSchema :=
  .mk ⟨none⟩ (.type (.object [("bar", .item (.mk ⟨none⟩ (.type (.string []))))] ["bar"]))

/-- A document declaring `Foo`/`Bar` and underscore-named copies. -/
def apiC1 : OpenAPI :=
  ⟨some ⟨[("Foo", .item fooSchema), ("Bar", .item barSchema),
          ("Foo_t", .item fooSchema), ("Bar_t", .item barSchema)]⟩⟩

/-- The discriminated schema of the claim: `propertyName = "kind"`, mapping
`a`/`b` to the (full) references to `Foo`/`Bar`. -/
def discSchema : OapiSchema :=
  .mk ⟨some ⟨"kind", [("a", "#/components/schemas/Foo"),
                      ("b", "#/components/schemas/Bar")], []⟩⟩
    (.type (.object [] []))

/-- The same discriminated schema with underscore-named targets, which shallow
resolution inlines. -/
def discSchemaU : OapiSchema :=
  .mk ⟨some ⟨"kind", [("a", "#/components/schemas/Foo_t"),
                      ("b", "#/components/schemas/Bar_t")], []⟩⟩
    (.type (.object [] []))

/-- A request body with two content-type entries. -/
def opTwoContent : OapiOperation :=
  ⟨[], some (.item ⟨[("application/json", ⟨some (.item numberSchema)⟩),
                     ("text/plain", ⟨some (.item numberSchema)⟩)]⟩), []⟩

/-- An operation with a header parameter. -/
def opHeaderParam : OapiOperation :=
  ⟨[.item (.header ⟨"h", .schema (.item numberSchema)⟩)], none, []⟩

/-- An operation whose `text/plain` response schema is `Number`. -/
def opPlainNumber : OapiOperation :=
  ⟨[], none, [("200", .item ⟨[("text/plain", ⟨some (.item numberSchema)⟩)]⟩)]⟩

/-! ## Resolver lemmas -/

theorem unwrapEnum_map_some : ∀ vals : List String,
    unwrapEnum (vals.map some) = some vals := by
  intro vals
  induction vals with
  | nil => rfl
  | cons v vs ih => simp [unwrapEnum, ih]

theorem stripLeading_append (p s : String) : stripLeading p (p ++ s) = some s := by
  unfold stripLeading
  have hp : p.data.isPrefixOf (p ++ s).data = true := by
    rw [String.data_append]
    simp [List.isPrefixOf_iff_prefix]
  rw [if_pos hp, String.data_append, List.drop_left]

/-! ## Claim theorems for the resolver and extractor -/

/-- C1 counterexample: `Foo` and `Bar` are plain object schemas, yet resolving
the discriminated schema yields `And`s of the marker object with `Reference`
placeholders (shallow resolution does not inline underscore-free names), and
after `simplify` no member of the union is a merged `Object` — every member is
still an `And`. -/
theorem claim_C1_counterexample :
    schema_ty 10 apiC1 discSchema =
      .ok (.or [.and [.object [("kind", .ident "a", false)], .reference "Foo"],
                .and [.object [("kind", .ident "b", false)], .reference "Bar"]]) ∧
    (orMembers (simplify_ty
      (.or [.and [.object [("kind", .ident "a", false)], .reference "Foo"],
            .and [.object [("kind", .ident "b", false)], .reference "Bar"]]))).all
      Ty.isObject = false := by
  decide

/-- C1 (amended): an object schema with a discriminator (no extensions, at
least two mapping entries) resolves to `Or` of the discriminator members, and
each member is `And` of the one-field marker object binding the discriminator
property to the required `Ident` tag and the shallow resolution (`ty_by_name`)
of the mapping value: for underscore-free names a `Reference` placeholder, so
`simplify` leaves each member an `And`; for underscore-named plain-object
targets the inlined object, so each member simplifies to the single merged
`Object` with the literal `kind` tag plus the target's fields; a bare mapping
value such as `"Foo"` fails. -/
theorem claim_C1_discriminated_union :
    (∀ (fuel : Nat) (api : OpenAPI) (pname name rest : String)
        (more : List (String × String)) (ty : Ty) (members : List Ty),
      ty_by_name fuel api rest = .ok ty →
      discriminatorMembers fuel api pname more = .ok members →
      discriminatorMembers (fuel + 1) api pname ((name, rest) :: more) =
        .ok (.and [.object [(pname, .ident name, false)], ty] :: members)) ∧
    (∀ (fuel : Nat) (api : OpenAPI) (pname : String)
        (e1 e2 : String × String) (mrest : List (String × String))
        (props : List (String × SchemaOrRef)) (required : List String)
        (properties : List (String × Ty × Bool)) (members : List Ty),
      objectProperties fuel api props required [] = .ok properties →
      discriminatorMembers fuel api pname (e1 :: e2 :: mrest) = .ok members →
      schema_ty (fuel + 1) api
          (.mk ⟨some ⟨pname, e1 :: e2 :: mrest, []⟩⟩
            (.type (.object props required))) =
        .ok (.or members)) ∧
    schema_ty 10 apiC1 discSchema =
      .ok (.or [.and [.object [("kind", .ident "a", false)], .reference "Foo"],
                .and [.object [("kind", .ident "b", false)], .reference "Bar"]]) ∧
    ((orMembers (simplify_ty
        (.or [.and [.object [("kind", .ident "a", false)], .reference "Foo"],
              .and [.object [("kind", .ident "b", false)], .reference "Bar"]]))).length
        = 2 ∧
     (orMembers (simplify_ty
        (.or [.and [.object [("kind", .ident "a", false)], .reference "Foo"],
              .and [.object [("kind", .ident "b", false)], .reference "Bar"]]))).all
        Ty.isAnd = true) ∧
    schema_ty 10 apiC1 discSchemaU =
      .ok (.or [.and [.object [("kind", .ident "a", false)],
                      .object [("foo", .number, false)]],
                .and [.object [("kind", .ident "b", false)],
                      .object [("bar", .string, false)]]]) ∧
    ((orMembers (simplify_ty
        (.or [.and [.object [("kind", .ident "a", false)],
                    .object [("foo", .number, false)]],
              .and [.object [("kind", .ident "b", false)],
                    .object [("bar", .string, false)]]]))).length = 2 ∧
     Ty.object [("foo", .number, false), ("kind", .ident "a", false)] ∈
       orMembers (simplify_ty
        (.or [.and [.object [("kind", .ident "a", false)],
                    .object [("foo", .number, false)]],
              .and [.object [("kind", .ident "b", false)],
                    .object [("bar", .string, false)]]])) ∧
     Ty.object [("bar", .string, false), ("kind", .ident "b", false)] ∈
       orMembers (simplify_ty
        (.or [.and [.object [("kind", .ident "a", false)],
                    .object [("foo", .number, false)]],
              .and [.object [("kind", .ident "b", false)],
                    .object [("bar", .string, false)]]]))) ∧
    ty_by_name 10 apiC1 "Foo" = .error .unsupportedConstruct := by
  refine ⟨?_, ?_, by decide, by decide, by decide, by decide, by decide⟩
  · intro fuel api pname name rest more ty members h1 h2
    simp [discriminatorMembers, h1, h2]
  · intro fuel api pname e1 e2 mrest props required properties members h1 h2
    obtain ⟨n1, r1⟩ := e1
    obtain ⟨n2, r2⟩ := e2
    simp [schema_ty, h1, h2]

theorem claim_C1_discriminated_union_witness :
    ty_by_name 9 apiC1 "#/components/schemas/Foo" = .ok (.reference "Foo") ∧
    discriminatorMembers 9 apiC1 "kind" [("b", "#/components/schemas/Bar")] =
      .ok [.and [.object [("kind", .ident "b", false)], .reference "Bar"]] ∧
    discriminatorMembers 10 apiC1 "kind"
        [("a", "#/components/schemas/Foo"), ("b", "#/components/schemas/Bar")] =
      .ok [.and [.object [("kind", .ident "a", false)], .reference "Foo"],
           .and [.object [("kind", .ident "b", false)], .reference "Bar"]] :=
  ⟨by decide, by decide,
    claim_C1_discriminated_union.1 9 apiC1 "kind" "a" "#/components/schemas/Foo"
      [("b", "#/components/schemas/Bar")] (.reference "Foo")
      [.and [.object [("kind", .ident "b", false)], .reference "Bar"]]
      (by decide) (by decide)⟩

/-- C5: a string schema with non-empty enumeration resolves to an `Or` of one
`Ident` per enumeration value in declaration order; with empty enumeration to
`String`; for enumeration `["A","B"]`, `Type::constants` on the resolved type
is `some ["A","B"]` in that order. -/
theorem claim_C5_enum_resolution :
    (∀ (fuel : Nat) (api : OpenAPI) (sdata : SchemaData),
      schema_ty (fuel + 1) api (.mk sdata (.type (.string []))) = .ok .string) ∧
    (∀ (fuel : Nat) (api : OpenAPI) (sdata : SchemaData) (vals : List String),
      vals ≠ [] →
      schema_ty (fuel + 1) api (.mk sdata (.type (.string (vals.map some)))) =
        .ok (.or (vals.map Ty.ident))) ∧
    (schema_ty 1 emptyApi (.mk ⟨none⟩ (.type (.string [some "A", some "B"]))) =
      .ok (.or [.ident "A", .ident "B"])) ∧
    ((Ty.or [.ident "A", .ident "B"]).constants = some ["A", "B"]) := by
  refine ⟨fun fuel api sdata => rfl, ?_, by decide, by decide⟩
  intro fuel api sdata vals hne
  cases vals with
  | nil => exact absurd rfl hne
  | cons v vs =>
    have h := unwrapEnum_map_some (v :: vs)
    simp only [List.map_cons] at h
    simp [schema_ty, h]

theorem claim_C5_enum_resolution_witness :
    (["A", "B"] : List String) ≠ [] ∧
    schema_ty 1 emptyApi
        (.mk ⟨none⟩ (.type (.string (["A", "B"].map some)))) =
      .ok (.or (["A", "B"].map Ty.ident)) :=
  ⟨by decide, claim_C5_enum_resolution.2.1 0 emptyApi ⟨none⟩ ["A", "B"] (by decide)⟩

/-- C6: an array schema with `minItems = maxItems = n` resolves to an
`n`-element `Tuple` repeating the element type; with neither bound to
`Array(elementType)`; any other combination of bounds fails. -/
theorem claim_C6_array_bounds :
    (∀ (fuel : Nat) (api : OpenAPI) (sdata : SchemaData) (item : SchemaOrRef)
        (ty : Ty) (n : Nat),
      shallow_schema_ty fuel api item = .ok ty →
      schema_ty (fuel + 1) api
          (.mk sdata (.type (.array (some item) (some n) (some n)))) =
        .ok (.tuple (List.replicate n ty))) ∧
    (∀ (fuel : Nat) (api : OpenAPI) (sdata : SchemaData) (item : SchemaOrRef)
        (ty : Ty),
      shallow_schema_ty fuel api item = .ok ty →
      schema_ty (fuel + 1) api (.mk sdata (.type (.array (some item) none none))) =
        .ok (.array ty)) ∧
    (∀ (fuel : Nat) (api : OpenAPI) (sdata : SchemaData) (item : SchemaOrRef)
        (ty : Ty) (m1 m2 : Nat),
      shallow_schema_ty fuel api item = .ok ty → m1 ≠ m2 →
      schema_ty (fuel + 1) api
          (.mk sdata (.type (.array (some item) (some m1) (some m2)))) =
        .error .unsupportedConstruct) ∧
    (∀ (fuel : Nat) (api : OpenAPI) (sdata : SchemaData) (item : SchemaOrRef)
        (ty : Ty) (m1 : Nat),
      shallow_schema_ty fuel api item = .ok ty →
      schema_ty (fuel + 1) api
          (.mk sdata (.type (.array (some item) (some m1) none))) =
        .error .unsupportedConstruct) ∧
    (∀ (fuel : Nat) (api : OpenAPI) (sdata : SchemaData) (item : SchemaOrRef)
        (ty : Ty) (m2 : Nat),
      shallow_schema_ty fuel api item = .ok ty →
      schema_ty (fuel + 1) api
          (.mk sdata (.type (.array (some item) none (some m2)))) =
        .error .unsupportedConstruct) ∧
    (schema_ty 3 emptyApi
        (.mk ⟨none⟩ (.type (.array (some (.item numberSchema)) (some 3) (some 3)))) =
      .ok (.tuple [.number, .number, .number])) ∧
    (schema_ty 3 emptyApi
        (.mk ⟨none⟩ (.type (.array (some (.item numberSchema)) none none))) =
      .ok (.array .number)) := by
  refine ⟨?_, ?_, ?_, ?_, ?_, by decide, by decide⟩
  · intro fuel api sdata item ty n h
    simp [schema_ty, h]
  · intro fuel api sdata item ty h
    simp [schema_ty, h]
  · intro fuel api sdata item ty m1 m2 h hne
    simp [schema_ty, h, hne]
  · intro fuel api sdata item ty m1 h
    simp [schema_ty, h]
  · intro fuel api sdata item ty m2 h
    simp [schema_ty, h]

theorem claim_C6_array_bounds_witness :
    shallow_schema_ty 2 emptyApi (.item numberSchema) = .ok .number ∧
    schema_ty 3 emptyApi
        (.mk ⟨none⟩ (.type (.array (some (.item numberSchema)) (some 3) (some 3)))) =
      .ok (.tuple (List.replicate 3 .number)) :=
  ⟨by decide,
    claim_C6_array_bounds.1 2 emptyApi ⟨none⟩ (.item numberSchema) .number 3
      (by decide)⟩

/-- C7: shallow resolution of `#/components/schemas/N` returns the placeholder
`Reference(N)` without inlining when `N` has no underscore; when `N` contains
an underscore it resolves deeply, and an inline schema is resolved directly. -/
theorem claim_C7_shallow_reference :
    (∀ (fuel : Nat) (api : OpenAPI) (name : String),
      containsChar name '_' = false →
      shallow_schema_ty (fuel + 1) api
          (.reference ("#/components/schemas/" ++ name)) =
        .ok (.reference name)) ∧
    (∀ (fuel : Nat) (api : OpenAPI) (name : String),
      containsChar name '_' = true →
      shallow_schema_ty (fuel + 1) api
          (.reference ("#/components/schemas/" ++ name)) =
        resolve_schema_ty fuel api
          (.reference ("#/components/schemas/" ++ name))) ∧
    (∀ (fuel : Nat) (api : OpenAPI) (s : OapiSchema),
      shallow_schema_ty (fuel + 1) api (.item s) = schema_ty fuel api s) := by
  refine ⟨?_, ?_, fun fuel api s => rfl⟩
  · intro fuel api name h
    simp [shallow_schema_ty, stripLeading_append, h]
  · intro fuel api name h
    simp [shallow_schema_ty, stripLeading_append, h]

theorem claim_C7_shallow_reference_witness :
    containsChar "Foo" '_' = false ∧
    shallow_schema_ty 10 apiC1 (.reference ("#/components/schemas/" ++ "Foo")) =
      .ok (.reference "Foo") :=
  ⟨by decide, claim_C7_shallow_reference.1 9 apiC1 "Foo" (by decide)⟩

/-- C8: operation extraction fails on a request body with two content-type
entries and on a header parameter (both unsupported constructs), and on a
`text/plain` response whose resolved, simplified schema type is `Number`
(a type mismatch). -/
theorem claim_C8_rejections :
    operation 10 emptyApi "/p" opTwoContent = .error .unsupportedConstruct ∧
    operation 10 emptyApi "/p" opHeaderParam = .error .unsupportedConstruct ∧
    operation 10 emptyApi "/p" opPlainNumber = .error .typeMismatch := by
  decide
